import Mathlib

/-!
# Helen Keller Activation Network — verification of the activation-graph engine

Shallow embedding of the core engine of the repository
(`HelenKellerActivationNetwork`): node store, resonance matcher,
spreading-activation propagation, Hebbian plasticity updater, coherence
metric and the persistence codec.

Modelling conventions:
* JavaScript numbers are modelled as real numbers (`ℝ`); `Math.tanh` is
  `Real.tanh`, `Math.sqrt` is `Real.sqrt`, `Math.abs` is `|·|`.
* A JavaScript `Map` is modelled as an insertion-ordered association list;
  `Map.get` finds the first matching key, `Map.set` replaces the value in
  place when the key is present and appends otherwise.
* Mutation of shared node objects is modelled by explicit store passing:
  an activated path is a list of node ids resolved against the current
  store, exactly as the live object references resolve in the source.
* `Date.now()` is modelled as a constant timestamp `now : ℤ` supplied to
  each engine call.
* Randomly generated node ids are supplied as an explicit `freshId`
  argument to the matcher.
-/

noncomputable section

namespace HelenKeller

/-! ## Data model (`types.ts`) -/

/-- `NodeConnection` from `types.ts`: a directed weighted edge record. -/
structure NodeConnection where
  weight : ℝ
  lastFired : ℤ
  plasticityRate : ℝ

/-- `ActivationNode` from `types.ts`.  `connections` is the node's `Map`
of outgoing edges keyed by target node id, in insertion order. -/
structure ActivationNode where
  id : String
  potential : ℝ
  connections : List (String × NodeConnection)
  decay : ℝ
  threshold : ℝ
  refractoryPeriod : ℤ
  lastFired : ℤ
  embedding : Option (List ℝ)
  semanticContent : Option String

/-- `ActivationParams` from `types.ts`. -/
structure ActivationParams where
  spread : ℝ
  threshold : ℝ
  decay : ℝ

/-- The node store: the class field `network : Map<string, ActivationNode>`. -/
abbrev Store := List (String × ActivationNode)

/-! ## JavaScript `Map` operations on association lists -/

/-- `Map.get`: the value of the first entry with the given key. -/
def mapGet {α : Type} (m : List (String × α)) (k : String) : Option α :=
  (m.find? (fun p => p.1 == k)).map (·.2)

/-- `Map.set`: replace the value in place when the key is present,
append a new entry otherwise. -/
def mapSet {α : Type} (m : List (String × α)) (k : String) (v : α) :
    List (String × α) :=
  if (m.find? (fun p => p.1 == k)).isSome then
    m.map (fun p => if p.1 == k then (k, v) else p)
  else
    m ++ [(k, v)]

/-- In-place mutation of the node stored under `id` (a field write through
a live object reference in the source). -/
def updateNode (s : Store) (id : String) (f : ActivationNode → ActivationNode) :
    Store :=
  s.map (fun p => if p.1 == id then (p.1, f p.2) else p)

/-- The key list of an association list. -/
def keys {α : Type} (m : List (String × α)) : List String :=
  m.map Prod.fst

/-- Overwriting one entry of a node's connection map. -/
def connSet (t : String) (c : NodeConnection) (n : ActivationNode) :
    ActivationNode :=
  { n with connections := mapSet n.connections t c }

/-- `node.potential += a`. -/
def addPotential (a : ℝ) (n : ActivationNode) : ActivationNode :=
  { n with potential := n.potential + a }

/-- `node.potential *= d`. -/
def scalePotential (d : ℝ) (n : ActivationNode) : ActivationNode :=
  { n with potential := n.potential * d }

/-- `node.lastFired = t`. -/
def setLastFired (t : ℤ) (n : ActivationNode) : ActivationNode :=
  { n with lastFired := t }

/-! ## Resonance matcher (`cosineSimilarity`, `createNode`, `findResonantNodes`) -/

/-- `cosineSimilarity(a, b)`: the source loops `i` over `a`'s indices and
accumulates `a[i]*b[i]`, `a[i]²` and `b[i]²`; for the vectors of equal
length used by the engine this is the zip formulation below. -/
def cosineSimilarity (a b : List ℝ) : ℝ :=
  ((a.zip b).map (fun p => p.1 * p.2)).sum /
    (Real.sqrt ((a.map (fun x => x * x)).sum) *
      Real.sqrt (((a.zip b).map (fun p => p.2 * p.2)).sum))

/-- The node record built by `createNode` (`id` is the randomly generated
string, supplied here explicitly). -/
def createNode (id : String) (embedding : List ℝ)
    (semanticContent : Option String) : ActivationNode :=
  { id := id
    potential := 1.0
    connections := []
    decay := 0.9
    threshold := 0.5
    refractoryPeriod := 100
    lastFired := 0
    embedding := some embedding
    semanticContent := semanticContent }

/-- The similarity threshold fixed inside `findResonantNodes`. -/
def resonanceThreshold : ℝ := 0.7

/-- The store after the matcher loop: every node whose embedding
resonates with the query has its `potential` overwritten with the
similarity value. -/
def resonancePass (q : List ℝ) (s : Store) : Store :=
  s.map (fun p =>
    match p.2.embedding with
    | some e =>
        if resonanceThreshold < cosineSimilarity q e then
          (p.1, { p.2 with potential := cosineSimilarity q e })
        else p
    | none => p)

/-- The `resonantNodes` array the matcher loop pushes: the resonant
nodes, with their freshly overwritten `potential`, in store order. -/
def resonantNodesOf (q : List ℝ) (s : Store) : List ActivationNode :=
  s.filterMap (fun p =>
    match p.2.embedding with
    | some e =>
        if resonanceThreshold < cosineSimilarity q e then
          some { p.2 with potential := cosineSimilarity q e }
        else none
    | none => none)

/-- `findResonantNodes(embedding, originalText?)`: returns the resonant
nodes (mutated in the store) or, when there are none, inserts and returns
one freshly created node. -/
def findResonantNodes (s : Store) (q : List ℝ) (originalText : Option String)
    (freshId : String) : List ActivationNode × Store :=
  let s1 := resonancePass q s
  let resonant := resonantNodesOf q s
  if resonant.isEmpty then
    let node := createNode freshId q originalText
    ([node], mapSet s1 freshId node)
  else
    (resonant, s1)

/-! ## Metrics (`calculateCoherence`, `updateCoherenceMetrics`) -/

/-- The loop body of `calculateCoherence`: the absolute weights of the
existing forward connections between consecutive path nodes. -/
def coherenceWeights : List ActivationNode → List ℝ
  | a :: b :: rest =>
      (match mapGet a.connections b.id with
       | some c => [|c.weight|]
       | none => []) ++ coherenceWeights (b :: rest)
  | _ => []

/-- `calculateCoherence(path)`. -/
def calculateCoherence (path : List ActivationNode) : ℝ :=
  if path.length < 2 then 1.0
  else
    let ws := coherenceWeights path
    if 0 < ws.length then ws.sum / (ws.length : ℝ) else 0

/-- `updateCoherenceMetrics(path)` acting on the pair
(`coherenceScore`, `chaosThreshold`) of class fields. -/
def updateCoherenceMetrics (path : List ActivationNode) (cs ct : ℝ) : ℝ × ℝ :=
  if path.length < 2 then (cs, ct)
  else
    let cs1 := 0.9 * cs + 0.1 * calculateCoherence path
    let ct1 := if cs1 < 0.5 ∧ 1.0 < ct then ct * 0.99 else ct
    (cs1, ct1)

/-! ## Propagation engine (`propagateActivation`) -/

/-- The class field `alpha` (regularization for recurrent alignment),
fixed at `1.0` and never mutated. -/
def alpha : ℝ := 1.0

/-- The mutable state threaded through the propagation loop: the store,
the activated path, the visited set, the FIFO wavefront, and the two
metric class fields. -/
structure PropState where
  network : Store
  path : List String
  visited : List String
  wavefront : List String
  coherenceScore : ℝ
  chaosThreshold : ℝ

/-- Resolve a path of node ids against the current store (live object
references in the source). -/
def resolvePath (s : Store) (path : List String) : List ActivationNode :=
  path.filterMap (mapGet s)

/-- One iteration of the inner `for` loop of `propagateActivation`:
propagate from the current node (whose decayed potential is `currentPot`)
along one outgoing connection. -/
def stepConn (params : ActivationParams) (now : ℤ) (edge : Bool)
    (currentPot : ℝ) (st : PropState) (pc : String × NodeConnection) :
    PropState :=
  if st.visited.contains pc.1 then st
  else
    match mapGet st.network pc.1 with
    | none => st
    | some connectedNode =>
        let baseActivation := currentPot * pc.2.weight * params.spread
        let alignmentBonus := if edge then alpha * Real.tanh baseActivation else 0
        let activation := baseActivation + alignmentBonus
        let newPotential := connectedNode.potential + activation
        let net1 := updateNode st.network pc.1
          (fun n => { n with potential := n.potential + activation })
        if params.threshold < newPotential then
          let net2 := updateNode net1 pc.1 (fun n => { n with lastFired := now })
          let path1 := st.path ++ [pc.1]
          let m := updateCoherenceMetrics (resolvePath net2 path1)
            st.coherenceScore st.chaosThreshold
          { network := net2
            path := path1
            visited := st.visited ++ [pc.1]
            wavefront := st.wavefront ++ [pc.1]
            coherenceScore := m.1
            chaosThreshold := m.2 }
        else
          { st with network := net1 }

/-- The `while (wavefront.length > 0)` loop of `propagateActivation`,
with an explicit fuel bound (the loop visits each node at most once, so
the fuel chosen by `propagateActivation` never runs out). -/
def propagateLoop (params : ActivationParams) (now : ℤ) (edge : Bool) :
    Nat → PropState → PropState
  | 0, st => st
  | fuel + 1, st =>
      match st.wavefront with
      | [] => st
      | currentId :: rest =>
          let st1 : PropState := { st with wavefront := rest }
          match mapGet st1.network currentId with
          | none => propagateLoop params now edge fuel st1
          | some current =>
              let net1 := updateNode st1.network currentId
                (fun n => { n with potential := n.potential * params.decay })
              let st2 : PropState := { st1 with network := net1 }
              if now - current.lastFired < current.refractoryPeriod then
                propagateLoop params now edge fuel st2
              else
                let st3 := current.connections.foldl
                  (stepConn params now edge (current.potential * params.decay)) st2
                propagateLoop params now edge fuel st3

/-- `propagateActivation(startNodes, params)`: returns the activated path
(as node ids, seeds first) and the mutated network state. -/
def propagateActivation (network : Store) (coherenceScore chaosThreshold : ℝ)
    (startIds : List String) (params : ActivationParams) (now : ℤ) :
    List String × PropState :=
  let edge : Bool := decide (1.0 < chaosThreshold ∧ chaosThreshold < 1.5)
  let st0 : PropState :=
    { network := network
      path := startIds
      visited := startIds
      wavefront := startIds
      coherenceScore := coherenceScore
      chaosThreshold := chaosThreshold }
  let final := propagateLoop params now edge
    (startIds.length + network.length + 1) st0
  (final.path, final)

/-- The broad (System 1) parameter regime used by `think`. -/
def broadParams : ActivationParams :=
  { spread := 0.8, threshold := 0.3, decay := 0.9 }

/-! ## Plasticity updater (`strengthenPath`) -/

/-- The body of the Hebbian pairwise loop for one consecutive pair
`(aId, bId)` of the activated path. -/
def strengthenPair (now : ℤ) (s : Store) (aId bId : String) : Store :=
  match mapGet s aId, mapGet s bId with
  | some a, some b =>
      let conn := (mapGet a.connections bId).getD
        { weight := 0.1, lastFired := now, plasticityRate := 0.1 }
      let strengthening := conn.plasticityRate * a.potential * b.potential
      let conn1 : NodeConnection :=
        { conn with
          weight := Real.tanh (conn.weight + strengthening)
          lastFired := now }
      let s1 := updateNode s aId
        (fun n => { n with connections := mapSet n.connections bId conn1 })
      match mapGet s1 bId with
      | some b1 =>
          let rev := (mapGet b1.connections aId).getD
            { weight := 0.1, lastFired := now, plasticityRate := 0.1 }
          let rev1 : NodeConnection :=
            { rev with weight := Real.tanh (rev.weight + strengthening * 0.7) }
          updateNode s1 bId
            (fun n => { n with connections := mapSet n.connections aId rev1 })
      | none => s1
  | _, _ => s

/-- The Hebbian pairwise loop over consecutive pairs of the path. -/
def strengthenPairs (now : ℤ) : Store → List String → Store
  | s, a :: b :: rest => strengthenPairs now (strengthenPair now s a b) (b :: rest)
  | s, _ => s

/-- One iteration of the anti-Hebbian loop: multiply by `0.99` the weight
of every outgoing connection of `nodeId` whose target is not in the path. -/
def antiHebbianNode (pathIds : List String) (s : Store) (nodeId : String) : Store :=
  updateNode s nodeId (fun n =>
    { n with
      connections := n.connections.map (fun pc =>
        if pathIds.contains pc.1 then pc
        else (pc.1, { pc.2 with weight := pc.2.weight * 0.99 })) })

/-- The anti-Hebbian pass of `strengthenPath`: one decay sweep per
occurrence of a node in the activated path. -/
def antiHebbianPass (pathIds : List String) (s : Store) : Store :=
  pathIds.foldl (antiHebbianNode pathIds) s

/-- `strengthenPath(activatedPath)`: Hebbian pairwise strengthening
followed by the anti-Hebbian decay pass. -/
def strengthenPath (s : Store) (pathIds : List String) (now : ℤ) : Store :=
  antiHebbianPass pathIds (strengthenPairs now s pathIds)

/-! ## Persistence codec (`saveNetwork`, `loadNetwork`, `initialize`) -/

/-- The per-node record written by `saveNetwork` (one JSON object value). -/
structure NodeData where
  potential : ℝ
  decay : ℝ
  threshold : ℝ
  refractoryPeriod : ℤ
  lastFired : ℤ
  connections : List (String × NodeConnection)
  embedding : Option (List ℝ)
  semanticContent : Option String

/-- JavaScript `x || null` / `x || undefined` on an optional string: the
empty string is falsy, so it collapses to the absent marker. -/
def jsStringOrNone : Option String → Option String
  | some s => if s = "" then none else some s
  | none => none

/-- The record `saveNetwork` serializes for one node.  `node.embedding ?
Array.from(node.embedding) : null` preserves presence (a `Float32Array`
is truthy even when empty); `node.semanticContent || null` collapses the
empty string. -/
def saveNode (n : ActivationNode) : NodeData :=
  { potential := n.potential
    decay := n.decay
    threshold := n.threshold
    refractoryPeriod := n.refractoryPeriod
    lastFired := n.lastFired
    connections := n.connections
    embedding := n.embedding
    semanticContent := jsStringOrNone n.semanticContent }

/-- `saveNetwork()`: the persisted record, keyed by node id. -/
def saveNetwork (s : Store) : List (String × NodeData) :=
  s.map (fun p => (p.1, saveNode p.2))

/-- The node `loadNetwork` reconstructs from one persisted entry; the
serialized `null` embedding becomes absent (a serialized array, even
empty, is truthy), and `semanticContent || undefined` again collapses
the empty string. -/
def loadNode (id : String) (d : NodeData) : ActivationNode :=
  { id := id
    potential := d.potential
    connections := d.connections
    decay := d.decay
    threshold := d.threshold
    refractoryPeriod := d.refractoryPeriod
    lastFired := d.lastFired
    embedding := d.embedding
    semanticContent := jsStringOrNone d.semanticContent }

/-- The entry loop of `loadNetwork` applied to successfully parsed data:
`this.network.set(id, node)` for every entry. -/
def loadNetwork (current : Store) (data : List (String × NodeData)) : Store :=
  data.foldl (fun s p => mapSet s p.1 (loadNode p.1 p.2)) current

/-- The `try`/`catch` of `loadNetwork`: a record that failed to parse
leaves the store as it was (the error is only logged). -/
def loadNetworkCaught (current : Store)
    (parsed : Except String (List (String × NodeData))) : Store :=
  match parsed with
  | .ok data => loadNetwork current data
  | .error _ => current

/-- The store produced by `initialize`: a missing persistence file skips
the load entirely, otherwise `loadNetwork` runs on the parse outcome of
the file contents, starting from the empty store of a fresh instance. -/
def initializeStore
    (file : Option (Except String (List (String × NodeData)))) : Store :=
  match file with
  | none => []
  | some parsed => loadNetworkCaught [] parsed

/-! ## `learn` -/

/-- The store-level effect of one `learn(experience)` call (the embedding
of the experience text is `q`, supplied by the external embedding
service): match or create resonant nodes, strengthen the path through
them, and report whether the periodic save fired
(`network.size % 10 === 0`). -/
def learnStep (s : Store) (q : List ℝ) (experience : String)
    (freshId : String) (now : ℤ) : Store × Bool :=
  let r := findResonantNodes s q (some experience) freshId
  let s2 := strengthenPath r.2 (r.1.map (·.id)) now
  (s2, s2.length % 10 == 0)

/-! ## Derived definitions used by the verification -/

/-- The consecutive-edge weights of a path, formulated over the zip of
the path with its tail (the spec's reading of the coherence loop). -/
def consecutiveAbsWeights (path : List ActivationNode) : List ℝ :=
  (path.zip path.tail).filterMap
    (fun p => (mapGet p.1.connections p.2.id).map (fun c => |c.weight|))

/-- Every connection weight in the store lies strictly within `(-1, 1)`.
(In the real-number model every value is automatically finite; the
strict bound is the content of the invariant.) -/
def WeightsBounded (s : Store) : Prop :=
  ∀ p ∈ s, ∀ pc ∈ (p.2 : ActivationNode).connections,
    -1 < (pc.2 : NodeConnection).weight ∧ (pc.2 : NodeConnection).weight < 1

/-- Everything of a node except its `potential` and `lastFired`. -/
def nodeFrame (n : ActivationNode) :
    String × List (String × NodeConnection) × ℝ × ℝ × ℤ ×
      Option (List ℝ) × Option String :=
  (n.id, n.connections, n.decay, n.threshold, n.refractoryPeriod,
    n.embedding, n.semanticContent)

/-- The store with every node reduced to its frame. -/
def storeFrame (s : Store) :
    List (String ×
      (String × List (String × NodeConnection) × ℝ × ℝ × ℤ ×
        Option (List ℝ) × Option String)) :=
  s.map (fun p => (p.1, nodeFrame p.2))

/-- The activation added to a neighbor along one connection. -/
def activationOf (params : ActivationParams) (edge : Bool) (currentPot : ℝ)
    (w : ℝ) : ℝ :=
  currentPot * w * params.spread +
    (if edge then alpha * Real.tanh (currentPot * w * params.spread) else 0)


/-! ## Bounds on the real hyperbolic tangent

The saturating nonlinearity of the weight update is `Math.tanh`.  Mathlib
provides only the definition for the real `tanh`, so the range and
monotonicity facts used below are derived here from the exponential.  -/

/-- `tanh x` written as `1 - 2 / (exp (2x) + 1)`. -/
theorem tanh_eq_one_sub (x : ℝ) :
    Real.tanh x = 1 - 2 / (Real.exp (2 * x) + 1) := by
  rw [Real.tanh_eq_sinh_div_cosh, Real.sinh_eq, Real.cosh_eq, Real.exp_neg]
  have h : (0 : ℝ) < Real.exp x := Real.exp_pos x
  have h2 : Real.exp (2 * x) = Real.exp x * Real.exp x := by
    rw [two_mul, Real.exp_add]
  rw [h2]
  have hne : Real.exp x ≠ 0 := ne_of_gt h
  have hden : (0 : ℝ) < Real.exp x * Real.exp x + 1 := by positivity
  field_simp
  ring

/-- `tanh` is strictly below `1` everywhere. -/
theorem tanh_lt_one (x : ℝ) : Real.tanh x < 1 := by
  rw [tanh_eq_one_sub]
  have h : (0 : ℝ) < 2 / (Real.exp (2 * x) + 1) := by positivity
  linarith

/-- `tanh` is strictly above `-1` everywhere. -/
theorem neg_one_lt_tanh (x : ℝ) : -1 < Real.tanh x := by
  rw [tanh_eq_one_sub]
  have h1 : (0 : ℝ) < Real.exp (2 * x) := Real.exp_pos _
  have h2 : 2 / (Real.exp (2 * x) + 1) < 2 := by
    rw [div_lt_iff (by linarith)]
    nlinarith
  linarith

/-- `tanh` is strictly monotone. -/
theorem tanh_strictMono : StrictMono Real.tanh := by
  intro a b hab
  rw [tanh_eq_one_sub, tanh_eq_one_sub]
  have h1 : Real.exp (2 * a) < Real.exp (2 * b) := Real.exp_lt_exp.mpr (by linarith)
  have h2 : (0 : ℝ) < Real.exp (2 * a) + 1 := by positivity
  have h3 : (0 : ℝ) < Real.exp (2 * b) + 1 := by positivity
  have h4 : 2 / (Real.exp (2 * b) + 1) < 2 / (Real.exp (2 * a) + 1) := by
    rw [div_lt_div_iff h3 h2]
    nlinarith
  linarith

/-- Lower bound `x / (1 + x) ≤ tanh x` for nonnegative `x`. -/
theorem self_div_le_tanh (x : ℝ) (hx : 0 ≤ x) : x / (1 + x) ≤ Real.tanh x := by
  rw [tanh_eq_one_sub]
  have h1 : 1 + 2 * x ≤ Real.exp (2 * x) := by
    have h := Real.add_one_le_exp (2 * x)
    linarith
  have h2 : (0 : ℝ) < 2 + 2 * x := by linarith
  have h3 : (0 : ℝ) < Real.exp (2 * x) + 1 := by positivity
  have h4 : 2 / (Real.exp (2 * x) + 1) ≤ 2 / (2 + 2 * x) := by
    rw [div_le_div_iff h3 h2]
    nlinarith
  have h5 : x / (1 + x) = 1 - 2 / (2 + 2 * x) := by
    have hne : (1 : ℝ) + x ≠ 0 := by linarith
    have hne2 : (2 : ℝ) + 2 * x ≠ 0 := by linarith
    field_simp
    ring
  linarith

/-- `tanh` is nonnegative on nonnegative inputs. -/
theorem tanh_nonneg_of_nonneg (x : ℝ) (hx : 0 ≤ x) : 0 ≤ Real.tanh x := by
  have h1 := self_div_le_tanh x hx
  have h2 : 0 ≤ x / (1 + x) := by positivity
  linarith

/-- On `[0, 1]`, `tanh x` dominates `x / 2`. -/
theorem half_le_tanh (x : ℝ) (h0 : 0 ≤ x) (h1 : x ≤ 1) : x / 2 ≤ Real.tanh x := by
  have h2 := self_div_le_tanh x h0
  have h3 : x / 2 ≤ x / (1 + x) := by
    have h4 : (0 : ℝ) < 1 + x := by linarith
    rw [div_le_div_iff (by norm_num) h4]
    nlinarith
  linarith

/-! ## Association-list lemmas -/

theorem mapGet_nil {α : Type} (k : String) : mapGet ([] : List (String × α)) k = none :=
  rfl

theorem mapGet_cons {α : Type} (p : String × α) (m : List (String × α)) (k : String) :
    mapGet (p :: m) k = if p.1 = k then some p.2 else mapGet m k := by
  by_cases h : p.1 = k
  · simp [mapGet, List.find?_cons_of_pos, h]
  · simp only [mapGet, if_neg h]
    rw [List.find?_cons_of_neg]
    simp [h]

theorem mapGet_append {α : Type} (m m2 : List (String × α)) (k : String) :
    mapGet (m ++ m2) k = (mapGet m k).or (mapGet m2 k) := by
  simp only [mapGet, List.find?_append]
  cases m.find? (fun p => p.1 == k) <;> simp

theorem mapGet_eq_none_of_not_mem_keys {α : Type} {m : List (String × α)}
    {k : String} (h : k ∉ keys m) : mapGet m k = none := by
  induction m with
  | nil => rfl
  | cons p rest ih =>
      rw [mapGet_cons]
      have h1 : ¬ p.1 = k := fun hh => h (by simp [keys, hh])
      rw [if_neg h1]
      exact ih (fun hh => h (by simp [keys] at hh ⊢; right; exact hh))

theorem mapGet_isSome_of_eq_some {α : Type} {m : List (String × α)}
    {k : String} {v : α} (h : mapGet m k = some v) :
    (m.find? (fun p => p.1 == k)).isSome := by
  simp only [mapGet] at h
  cases hf : m.find? (fun p => p.1 == k) <;> simp [hf] at h ⊢

theorem mapGet_updateNode_self (s : Store) (k : String)
    (f : ActivationNode → ActivationNode) :
    mapGet (updateNode s k f) k = (mapGet s k).map f := by
  induction s with
  | nil => rfl
  | cons p rest ih =>
      by_cases h : p.1 = k
      · simp [updateNode, mapGet_cons, h] at ih ⊢
      · simp [updateNode, mapGet_cons, h] at ih ⊢
        exact ih

theorem mapGet_updateNode_ne (s : Store) (k k' : String)
    (f : ActivationNode → ActivationNode) (h : k' ≠ k) :
    mapGet (updateNode s k f) k' = mapGet s k' := by
  induction s with
  | nil => rfl
  | cons p rest ih =>
      by_cases hpk : p.1 = k
      · have h0 : ¬ k = k' := fun hh => h hh.symm
        have h1 : ¬ p.1 = k' := by rw [hpk]; exact h0
        simp [updateNode, mapGet_cons, hpk, h0, h1] at ih ⊢
        exact ih
      · simp only [updateNode, List.map_cons] at ih ⊢
        rw [show ((if p.1 == k then (p.1, f p.2) else p)) = p by simp [hpk]]
        rw [mapGet_cons, mapGet_cons]
        by_cases hpk' : p.1 = k'
        · simp [hpk']
        · simp only [if_neg hpk']
          exact ih

theorem mapSet_of_not_mem_keys {α : Type} {m : List (String × α)} {k : String}
    (v : α) (h : k ∉ keys m) : mapSet m k v = m ++ [(k, v)] := by
  have hf : m.find? (fun p => p.1 == k) = none := by
    rw [List.find?_eq_none]
    intro x hx
    simp only [beq_iff_eq]
    exact fun hh => h (by simp [keys]; exact ⟨x.2, hh ▸ hx⟩)
  simp [mapSet, hf]

theorem mapGet_mapSet_self {α : Type} (m : List (String × α)) (k : String) (v : α) :
    mapGet (mapSet m k v) k = some v := by
  unfold mapSet
  by_cases hf : (m.find? (fun p => p.1 == k)).isSome
  · rw [if_pos hf]
    induction m with
    | nil => simp at hf
    | cons p rest ih =>
        by_cases h : p.1 = k
        · simp [mapGet_cons, h]
        · rw [List.map_cons, show ((if p.1 == k then (k, v) else p)) = p by simp [h],
            mapGet_cons, if_neg h]
          apply ih
          rw [List.find?_cons_of_neg] at hf
          · exact hf
          · simp [h]
  · rw [if_neg hf]
    rw [mapGet_append]
    have h0 : mapGet m k = none := by
      simp only [mapGet]
      cases hc : m.find? (fun p => p.1 == k)
      · rfl
      · rw [hc] at hf; simp at hf
    rw [h0]
    simp [mapGet_cons]

theorem mapGet_mapSet_ne {α : Type} (m : List (String × α)) (k k' : String) (v : α)
    (h : k' ≠ k) : mapGet (mapSet m k v) k' = mapGet m k' := by
  unfold mapSet
  by_cases hf : (m.find? (fun p => p.1 == k)).isSome
  · rw [if_pos hf]
    induction m with
    | nil => rfl
    | cons p rest ih =>
        by_cases hpk : p.1 = k
        · have h1 : ¬ k = k' := fun hh => h hh.symm
          have h2 : ¬ p.1 = k' := by rw [hpk]; exact h1
          simp only [List.map_cons, show ((if p.1 == k then (k, v) else p)) = (k, v) by simp [hpk]]
          rw [mapGet_cons, mapGet_cons]
          simp only [if_neg h1, if_neg h2]
          by_cases hr : (rest.find? (fun p => p.1 == k)).isSome
          · exact ih hr
          · have hnone : rest.find? (fun p => p.1 == k) = none := by
              cases hc : rest.find? (fun p => p.1 == k)
              · rfl
              · rw [hc] at hr; simp at hr
            have hall := List.find?_eq_none.mp hnone
            have hmap : rest.map (fun p => if p.1 == k then (k, v) else p)
                = rest.map id := by
              apply List.map_congr_left
              intro a ha
              have h3 := hall a ha
              simp at h3
              simp [h3]
            rw [hmap, List.map_id]
        · simp only [List.map_cons, show ((if p.1 == k then (k, v) else p)) = p by simp [hpk]]
          rw [mapGet_cons, mapGet_cons]
          by_cases hpk' : p.1 = k'
          · simp [hpk']
          · simp only [if_neg hpk']
            rw [List.find?_cons_of_neg] at hf
            · exact ih hf
            · simp [hpk]
  · rw [if_neg hf]
    rw [mapGet_append, mapGet_cons]
    simp only [if_neg (fun hh => h hh.symm : ¬ k = k'), mapGet_nil]
    cases hc : mapGet m k' <;> simp

theorem mem_mapSet {α : Type} {m : List (String × α)} {k : String} {v : α}
    {p : String × α} (h : p ∈ mapSet m k v) : p ∈ m ∨ p = (k, v) := by
  unfold mapSet at h
  split at h
  · rcases List.mem_map.mp h with ⟨q, hq, hfq⟩
    by_cases hqk : q.1 = k
    · right; simp [hqk] at hfq; exact hfq.symm
    · left; simp [hqk] at hfq; exact hfq ▸ hq
  · rcases List.mem_append.mp h with h1 | h1
    · left; exact h1
    · right; simpa using h1

theorem mem_updateNode {s : Store} {k : String} {f : ActivationNode → ActivationNode}
    {p : String × ActivationNode} (h : p ∈ updateNode s k f) :
    p ∈ s ∨ ∃ q ∈ s, p = (q.1, f q.2) := by
  rcases List.mem_map.mp h with ⟨q, hq, hfq⟩
  by_cases hqk : q.1 = k
  · right
    refine ⟨q, hq, ?_⟩
    rw [hqk]
    simp [hqk] at hfq
    exact hfq.symm
  · left; simp [hqk] at hfq; exact hfq ▸ hq

/-! ## Persistence round-trip (C1, C8) -/

/-- `x || null` collapses only the empty string, and does so idempotently. -/
theorem jsStringOrNone_eq (x : Option String) (h : x ≠ some "") :
    jsStringOrNone x = x := by
  cases x with
  | none => rfl
  | some str =>
      have : str ≠ "" := fun hh => h (by rw [hh])
      simp [jsStringOrNone, this]

theorem keys_append {α : Type} (m m2 : List (String × α)) :
    keys (m ++ m2) = keys m ++ keys m2 := by
  simp [keys]

/-- Loading data whose keys are distinct and disjoint from the current
store appends the reconstructed nodes in order. -/
theorem loadNetwork_disjoint (data : List (String × NodeData)) (current : Store)
    (hnd : (keys data).Nodup) (hdis : ∀ k ∈ keys data, k ∉ keys current) :
    loadNetwork current data =
      current ++ data.map (fun p => (p.1, loadNode p.1 p.2)) := by
  induction data generalizing current with
  | nil => simp [loadNetwork]
  | cons p rest ih =>
      have hp : p.1 ∉ keys current := hdis p.1 (by simp [keys])
      have hnd' : (keys rest).Nodup := by
        simp only [keys, List.map_cons] at hnd
        exact hnd.of_cons
      have hhead : p.1 ∉ keys rest := by
        simp only [keys, List.map_cons, List.nodup_cons] at hnd
        exact hnd.1
      have step : loadNetwork current (p :: rest)
          = loadNetwork (current ++ [(p.1, loadNode p.1 p.2)]) rest := by
        simp only [loadNetwork, List.foldl_cons]
        rw [mapSet_of_not_mem_keys _ hp]
      rw [step, ih (current ++ [(p.1, loadNode p.1 p.2)]) hnd']
      · simp
      · intro k hk
        rw [keys_append]
        simp only [List.mem_append]
        push_neg
        constructor
        · exact hdis k (by simp [keys] at hk ⊢; right; exact hk)
        · simp only [keys, List.map_cons, List.map_nil, List.mem_singleton]
          intro hkp
          rw [hkp] at hk
          exact hhead hk

/-- **C1 (amended).** Persistence round-trip: for every well-formed store
(entries keyed by their node's id, keys distinct) in which no node's
`semanticContent` is the empty string, `loadNetwork` on the record
produced by `saveNetwork` reproduces the store exactly — every scalar
field, the connection map, the embedding (or its absence) and the
semantic content (or its absence).  The empty-string restriction is
forced: `node.semanticContent || null` collapses `""` to the absent
marker on save. -/
theorem persistence_round_trip (s : Store) (hnd : (keys s).Nodup)
    (hid : ∀ p ∈ s, (p.2 : ActivationNode).id = p.1)
    (hsc : ∀ p ∈ s, (p.2 : ActivationNode).semanticContent ≠ some "") :
    loadNetwork [] (saveNetwork s) = s := by
  rw [loadNetwork_disjoint]
  · simp only [List.nil_append, saveNetwork, List.map_map]
    have hpt : ∀ p ∈ s,
        ((fun p => (p.1, loadNode p.1 p.2)) ∘ fun p => (p.1, saveNode p.2)) p
          = id p := by
      intro p hp
      have h1 := hid p hp
      have h2 := hsc p hp
      simp only [Function.comp, id]
      rcases p with ⟨k, n⟩
      simp only [Prod.mk.injEq, true_and]
      rcases n with ⟨nid, npot, nconn, ndec, nthr, nref, nlf, nemb, nsc⟩
      simp only at h1 h2
      simp [loadNode, saveNode, h1, jsStringOrNone_eq _ h2]
    rw [List.map_congr_left hpt, List.map_id]
  · have : keys (saveNetwork s) = keys s := by simp [keys, saveNetwork]
    rw [this]; exact hnd
  · intro k _
    simp [keys]

/-- **C1 (witness).** The round-trip theorem applied to a concrete
one-node store. -/
theorem persistence_round_trip_witness :
    loadNetwork [] (saveNetwork
      [("n", ⟨"n", 0, [], 0.9, 0.5, 100, 0, none, some "water"⟩)]) =
      [("n", ⟨"n", 0, [], 0.9, 0.5, 100, 0, none, some "water"⟩)] :=
  persistence_round_trip _ (by simp [keys]) (by simp) (by simp)

/-- **C1 (counterexample).** The round-trip claim fails as stated for
every store: a node whose `semanticContent` is the (falsy) empty string
is reloaded with `semanticContent` absent. -/
theorem persistence_round_trip_counterexample :
    loadNetwork [] (saveNetwork
      [("n", ⟨"n", 0, [], 0.9, 0.5, 100, 0, none, some ""⟩)]) ≠
      [("n", ⟨"n", 0, [], 0.9, 0.5, 100, 0, none, some ""⟩)] := by
  have hL : loadNetwork [] (saveNetwork
      [("n", ⟨"n", 0, [], 0.9, 0.5, 100, 0, none, some ""⟩)])
      = [("n", ⟨"n", 0, [], 0.9, 0.5, 100, 0, none, none⟩)] := by
    simp [loadNetwork, saveNetwork, saveNode, loadNode, jsStringOrNone, mapSet]
  rw [hL]
  simp

/-- **C8.** Persistence-corruption recovery: a missing persistence file,
or file contents on which the parse step fails, leaves initialization
with an empty store; the failure is caught inside `loadNetwork` and never
surfaces out of `initialize`. -/
theorem persistence_corruption_recovery :
    initializeStore none = [] ∧
    ∀ parseError : String,
      initializeStore (some (.error parseError)) = [] := by
  exact ⟨rfl, fun _ => rfl⟩

/-! ## Coherence metric (C7) -/

/-- The loop of `calculateCoherence` collects exactly the consecutive
existing-edge absolute weights. -/
theorem coherenceWeights_eq (path : List ActivationNode) :
    coherenceWeights path = consecutiveAbsWeights path := by
  induction path with
  | nil => rfl
  | cons a rest ih =>
      cases rest with
      | nil => rfl
      | cons b r =>
          simp only [coherenceWeights, consecutiveAbsWeights, List.tail_cons,
            List.zip_cons_cons, List.filterMap_cons] at ih ⊢
          cases h : mapGet a.connections b.id with
          | none => simpa [h] using ih
          | some c => simpa [h] using ih

/-- **C7.** The coherence metric: `1.0` for paths shorter than two
nodes; otherwise the mean absolute weight over the existing consecutive
forward connections (`0` when none exists); and for paths of length at
least two whose consecutive connection weights lie in `(-1, 1)` the
result lies in `[0, 1]`. -/
theorem coherence_metric (path : List ActivationNode) :
    (path.length < 2 → calculateCoherence path = 1.0) ∧
    (2 ≤ path.length →
      calculateCoherence path =
        (if consecutiveAbsWeights path = [] then 0
         else (consecutiveAbsWeights path).sum /
           ((consecutiveAbsWeights path).length : ℝ))) ∧
    (2 ≤ path.length →
      (∀ p ∈ path.zip path.tail, ∀ c, mapGet p.1.connections p.2.id = some c →
        -1 < c.weight ∧ c.weight < 1) →
      0 ≤ calculateCoherence path ∧ calculateCoherence path ≤ 1) := by
  refine ⟨?_, ?_, ?_⟩
  · intro h
    simp [calculateCoherence, h]
  · intro h
    have h2 : ¬ path.length < 2 := by omega
    simp only [calculateCoherence, if_neg h2, coherenceWeights_eq]
    by_cases he : consecutiveAbsWeights path = []
    · simp [he]
    · have : 0 < (consecutiveAbsWeights path).length :=
        List.length_pos.mpr he
      simp [he, this]
  · intro h hw
    have hbound : ∀ w ∈ consecutiveAbsWeights path, 0 ≤ w ∧ w ≤ 1 := by
      intro w hmem
      rcases List.mem_filterMap.mp hmem with ⟨p, hp, hfp⟩
      cases hc : mapGet p.1.connections p.2.id with
      | none => rw [hc] at hfp; simp at hfp
      | some c =>
          rw [hc] at hfp
          simp only [Option.map_some', Option.some.injEq] at hfp
          have hcw := hw p hp c hc
          constructor
          · rw [← hfp]; exact abs_nonneg _
          · rw [← hfp]
            rw [abs_le]
            constructor <;> linarith [hcw.1, hcw.2]
    have h2 : ¬ path.length < 2 := by omega
    simp only [calculateCoherence, if_neg h2, coherenceWeights_eq]
    by_cases he : consecutiveAbsWeights path = []
    · simp [he]
    · have hlen : 0 < (consecutiveAbsWeights path).length :=
        List.length_pos.mpr he
      simp only [hlen, if_pos]
      have hlenR : (0 : ℝ) < ((consecutiveAbsWeights path).length : ℝ) := by
        exact_mod_cast hlen
      constructor
      · apply div_nonneg _ (le_of_lt hlenR)
        exact List.sum_nonneg (fun w hw2 => (hbound w hw2).1)
      · rw [div_le_one hlenR]
        have := List.sum_le_card_nsmul (consecutiveAbsWeights path) 1
          (fun w hw2 => (hbound w hw2).2)
        simpa using this

/-- **C7 (witness).** The coherence bounds applied to a concrete
two-node path with one existing connection of weight `1/2`. -/
theorem coherence_metric_witness :
    0 ≤ calculateCoherence
        [⟨"a", 0, [("b", ⟨0.5, 0, 0.1⟩)], 0.9, 0.5, 100, 0, none, none⟩,
         ⟨"b", 0, [], 0.9, 0.5, 100, 0, none, none⟩] ∧
      calculateCoherence
        [⟨"a", 0, [("b", ⟨0.5, 0, 0.1⟩)], 0.9, 0.5, 100, 0, none, none⟩,
         ⟨"b", 0, [], 0.9, 0.5, 100, 0, none, none⟩] ≤ 1 :=
  (coherence_metric _).2.2 (by simp) (by
    intro p hp c hc
    simp only [List.tail_cons, List.zip_cons_cons, List.zip_nil_right,
      List.mem_singleton] at hp
    rw [hp] at hc
    simp only [mapGet_cons] at hc
    norm_num at hc
    rw [← hc]
    norm_num)

/-! ## Weight-bound invariant (C2) -/

theorem weightsBounded_updateNode {s : Store} {k : String}
    {f : ActivationNode → ActivationNode} (h : WeightsBounded s)
    (hf : ∀ n, (∀ pc ∈ n.connections, -1 < pc.2.weight ∧ pc.2.weight < 1) →
      ∀ pc ∈ (f n).connections, -1 < pc.2.weight ∧ pc.2.weight < 1) :
    WeightsBounded (updateNode s k f) := by
  intro p hp pc hpc
  rcases mem_updateNode hp with h1 | ⟨q, hq, hpq⟩
  · exact h p h1 pc hpc
  · subst hpq
    exact hf q.2 (fun pc2 hpc2 => h q hq pc2 hpc2) pc hpc

theorem connections_mapSet_bounded {conns : List (String × NodeConnection)}
    {k : String} {c : NodeConnection}
    (h : ∀ pc ∈ conns, -1 < pc.2.weight ∧ pc.2.weight < 1)
    (hc : -1 < c.weight ∧ c.weight < 1) :
    ∀ pc ∈ mapSet conns k c, -1 < pc.2.weight ∧ pc.2.weight < 1 := by
  intro pc hpc
  rcases mem_mapSet hpc with h1 | h1
  · exact h pc h1
  · rw [h1]; exact hc

theorem weightsBounded_connSet {s : Store} (k t : String) (c : NodeConnection)
    (h : WeightsBounded s) (hc : -1 < c.weight ∧ c.weight < 1) :
    WeightsBounded (updateNode s k
      (fun n => { n with connections := mapSet n.connections t c })) := by
  apply weightsBounded_updateNode h
  intro n hn
  exact connections_mapSet_bounded hn hc

theorem weightsBounded_strengthenPair (now : ℤ) (s : Store) (aId bId : String)
    (h : WeightsBounded s) : WeightsBounded (strengthenPair now s aId bId) := by
  unfold strengthenPair
  split
  · dsimp only
    split
    · apply weightsBounded_connSet
      · apply weightsBounded_connSet _ _ _ h
        exact ⟨neg_one_lt_tanh _, tanh_lt_one _⟩
      · exact ⟨neg_one_lt_tanh _, tanh_lt_one _⟩
    · apply weightsBounded_connSet _ _ _ h
      exact ⟨neg_one_lt_tanh _, tanh_lt_one _⟩
  · exact h

theorem weightsBounded_strengthenPairs (now : ℤ) (path : List String) (s : Store)
    (h : WeightsBounded s) : WeightsBounded (strengthenPairs now s path) := by
  induction path generalizing s with
  | nil => exact h
  | cons a rest ih =>
      cases rest with
      | nil => exact h
      | cons b r =>
          exact ih (strengthenPair now s a b)
            (weightsBounded_strengthenPair now s a b h)

theorem weightsBounded_antiHebbianNode (path : List String) (s : Store)
    (k : String) (h : WeightsBounded s) :
    WeightsBounded (antiHebbianNode path s k) := by
  apply weightsBounded_updateNode h
  intro n hn pc hpc
  rcases List.mem_map.mp hpc with ⟨q, hq, hfq⟩
  by_cases hmem : path.contains q.1
  · rw [if_pos hmem] at hfq
    rw [← hfq]
    exact hn q hq
  · rw [if_neg hmem] at hfq
    rw [← hfq]
    have hb := hn q hq
    constructor <;> simp only [] <;> nlinarith [hb.1, hb.2]

theorem weightsBounded_antiHebbianFold (full todo : List String) (s : Store)
    (h : WeightsBounded s) :
    WeightsBounded (todo.foldl (antiHebbianNode full) s) := by
  induction todo generalizing s with
  | nil => exact h
  | cons a rest ih =>
      exact ih (antiHebbianNode full s a)
        (weightsBounded_antiHebbianNode full s a h)

theorem weightsBounded_strengthenPath (s : Store) (path : List String) (now : ℤ)
    (h : WeightsBounded s) : WeightsBounded (strengthenPath s path now) :=
  weightsBounded_antiHebbianFold path path _
    (weightsBounded_strengthenPairs now path s h)

/-- **C2.** Weight-bound invariant: from any store whose connection
weights all lie strictly within `(-1, 1)` — as do connections created by
`strengthenPath` itself, whose creation default is `0.1` — any finite
sequence of `strengthenPath` calls leaves every connection weight
strictly within `(-1, 1)`; moreover the `tanh` saturating update always
lands in `(-1, 1)` and the `0.99` anti-Hebbian multiplication preserves
the bound. -/
theorem weight_bound_invariant (s : Store) (h : WeightsBounded s)
    (calls : List (List String × ℤ)) :
    WeightsBounded
      (calls.foldl (fun st c => strengthenPath st c.1 c.2) s) ∧
    (∀ w d : ℝ, -1 < Real.tanh (w + d) ∧ Real.tanh (w + d) < 1) ∧
    (∀ w : ℝ, -1 < w → w < 1 → -1 < w * 0.99 ∧ w * 0.99 < 1) := by
  refine ⟨?_, ?_, ?_⟩
  · induction calls generalizing s with
    | nil => exact h
    | cons c rest ih =>
        exact ih _ (weightsBounded_strengthenPath _ _ _ h)
  · intro w d
    exact ⟨neg_one_lt_tanh _, tanh_lt_one _⟩
  · intro w h1 h2
    constructor <;> nlinarith

/-- **C2 (witness).** The invariant applied to a concrete store holding
one freshly created connection of weight `0.1` and one strengthening
call over its two nodes. -/
theorem weight_bound_invariant_witness :
    WeightsBounded
      ([(["a", "b"], (5 : ℤ))].foldl (fun st c => strengthenPath st c.1 c.2)
        [("a", ⟨"a", 1, [("b", ⟨0.1, 0, 0.1⟩)], 0.9, 0.5, 100, 0, none, none⟩),
         ("b", ⟨"b", 1, [], 0.9, 0.5, 100, 0, none, none⟩)]) :=
  (weight_bound_invariant _ (by
    intro p hp pc hpc
    simp at hp
    rcases hp with h | h <;> subst h <;> simp at hpc
    subst hpc
    norm_num) _).1

/-! ## Anti-Hebbian decay (C6) -/

theorem foldl_antiHebbian_not_mem (full todo : List String) (s : Store)
    (k : String) (h : k ∉ todo) :
    mapGet (todo.foldl (antiHebbianNode full) s) k = mapGet s k := by
  induction todo generalizing s with
  | nil => rfl
  | cons j rest ih =>
      have hk : k ≠ j := fun hh => h (hh ▸ List.mem_cons_self j rest)
      rw [List.foldl_cons, ih _ (fun hh => h (List.mem_cons_of_mem _ hh))]
      exact mapGet_updateNode_ne s j k _ hk

/-- The anti-Hebbian fold applies the decay sweep exactly once to a node
whose id occurs exactly once in the swept list. -/
theorem mapGet_antiHebbianFold (full path : List String) (s : Store)
    (k : String) (n : ActivationNode) (hnd : path.Nodup) (hmem : k ∈ path)
    (hk : mapGet s k = some n) :
    mapGet (path.foldl (antiHebbianNode full) s) k =
      some { n with connections := n.connections.map (fun pc =>
        if full.contains pc.1 then pc
        else (pc.1, { pc.2 with weight := pc.2.weight * 0.99 })) } := by
  induction path generalizing s with
  | nil => cases hmem
  | cons j rest ih =>
      rw [List.foldl_cons]
      by_cases hkj : k = j
      · subst hkj
        have hrest : k ∉ rest := (List.nodup_cons.mp hnd).1
        rw [foldl_antiHebbian_not_mem _ _ _ _ hrest]
        unfold antiHebbianNode
        rw [mapGet_updateNode_self, hk]
        rfl
      · have hmem2 : k ∈ rest := by
          rcases List.mem_cons.mp hmem with h | h
          · exact absurd h hkj
          · exact h
        have hk2 : mapGet (antiHebbianNode full s j) k = some n := by
          unfold antiHebbianNode
          rw [mapGet_updateNode_ne s j k _ hkj]
          exact hk
        exact ih _ (List.nodup_cons.mp hnd).2 hmem2 hk2

/-- **C6 (amended).** Anti-Hebbian decay: within a single
`strengthenPath` call whose path has no repeated node, the decay pass
(`antiHebbianPass`, the second phase of `strengthenPath`) multiplies by
`0.99` — exactly once — the weight of every connection going out of a
path node to a target outside the path, which strictly reduces the
weight whenever it is positive, and it leaves every connection whose
target is in the path untouched. -/
theorem anti_hebbian_decay (s : Store) (path : List String) (k : String)
    (n : ActivationNode) (hnd : path.Nodup) (hmem : k ∈ path)
    (hk : mapGet s k = some n) :
    ∃ n', mapGet (antiHebbianPass path s) k = some n' ∧
      n'.connections = n.connections.map (fun pc =>
        if path.contains pc.1 then pc
        else (pc.1, { pc.2 with weight := pc.2.weight * 0.99 })) ∧
      (∀ pc ∈ n.connections, pc.1 ∈ path → pc ∈ n'.connections) ∧
      (∀ pc ∈ n.connections, pc.1 ∉ path →
        (pc.1, { pc.2 with weight := pc.2.weight * 0.99 }) ∈ n'.connections ∧
        (0 < pc.2.weight → pc.2.weight * 0.99 < pc.2.weight)) := by
  unfold antiHebbianPass
  refine ⟨_, mapGet_antiHebbianFold path path s k n hnd hmem hk, rfl, ?_, ?_⟩
  · intro pc hpc hin
    apply List.mem_map.mpr
    refine ⟨pc, hpc, ?_⟩
    simp [hin]
  · intro pc hpc hout
    constructor
    · apply List.mem_map.mpr
      refine ⟨pc, hpc, ?_⟩
      simp [hout]
    · intro hw
      nlinarith

/-- **C6 (witness).** The decay pass on a concrete store: the path node
`"a"` has one connection out of the path (to `"x"`, weight `0.4`,
strictly reduced to `0.4 * 0.99`) and one connection into the path
(to `"b"`, untouched). -/
theorem anti_hebbian_decay_witness :
    ∃ n', mapGet (antiHebbianPass ["a", "b"]
        [("a", ⟨"a", 1, [("x", ⟨0.4, 0, 0.1⟩), ("b", ⟨0.2, 0, 0.1⟩)],
            0.9, 0.5, 100, 0, none, none⟩),
         ("b", ⟨"b", 1, [], 0.9, 0.5, 100, 0, none, none⟩)]) "a" = some n' ∧
      n'.connections =
        [("x", ⟨0.4, 0, 0.1⟩), ("b", ⟨0.2, 0, 0.1⟩)].map (fun pc =>
          if ["a", "b"].contains pc.1 then pc
          else (pc.1, { pc.2 with weight := pc.2.weight * 0.99 })) ∧
      (∀ pc ∈ [(("x" : String), (⟨0.4, 0, 0.1⟩ : NodeConnection)),
          ("b", ⟨0.2, 0, 0.1⟩)], pc.1 ∈ ["a", "b"] → pc ∈ n'.connections) ∧
      (∀ pc ∈ [(("x" : String), (⟨0.4, 0, 0.1⟩ : NodeConnection)),
          ("b", ⟨0.2, 0, 0.1⟩)], pc.1 ∉ ["a", "b"] →
        (pc.1, { pc.2 with weight := pc.2.weight * 0.99 }) ∈ n'.connections ∧
        (0 < pc.2.weight → pc.2.weight * 0.99 < pc.2.weight)) :=
  anti_hebbian_decay
    [("a", ⟨"a", 1, [("x", ⟨0.4, 0, 0.1⟩), ("b", ⟨0.2, 0, 0.1⟩)],
        0.9, 0.5, 100, 0, none, none⟩),
     ("b", ⟨"b", 1, [], 0.9, 0.5, 100, 0, none, none⟩)]
    ["a", "b"] "a"
    ⟨"a", 1, [("x", ⟨0.4, 0, 0.1⟩), ("b", ⟨0.2, 0, 0.1⟩)],
      0.9, 0.5, 100, 0, none, none⟩
    (by simp) (by simp) (by simp [mapGet_cons])

/-- **C6 (counterexample).** The claim's "strictly reduced" fails as
stated: a connection of negative weight going out of the path has its
weight strictly increased by the `0.99` multiplication. -/
theorem anti_hebbian_decay_counterexample :
    ∃ n', mapGet (strengthenPath
        [("a", ⟨"a", 1, [("x", ⟨-0.5, 0, 0.1⟩)], 0.9, 0.5, 100, 0, none, none⟩),
         ("x", ⟨"x", 1, [], 0.9, 0.5, 100, 0, none, none⟩)] ["a"] 0) "a"
        = some n' ∧
      ∃ c', mapGet n'.connections "x" = some c' ∧ (-0.5 : ℝ) < c'.weight := by
  refine ⟨⟨"a", 1, [("x", ⟨-0.5 * 0.99, 0, 0.1⟩)], 0.9, 0.5, 100, 0, none, none⟩,
    ?_, ⟨-0.5 * 0.99, 0, 0.1⟩, ?_, by norm_num⟩
  · show mapGet (strengthenPath _ ["a"] 0) "a" = _
    simp [strengthenPath, strengthenPairs, antiHebbianPass, antiHebbianNode,
      updateNode, mapGet_cons]
  · simp [mapGet_cons]

/-! ## Asymmetric bidirectional strengthening (C5) -/

/-- Looking a target up in a decay-swept connection map. -/
theorem mapGet_map_decay (conns : List (String × NodeConnection))
    (full : List String) (t : String) :
    mapGet (conns.map (fun pc =>
      if full.contains pc.1 then pc
      else (pc.1, { pc.2 with weight := pc.2.weight * 0.99 }))) t =
    (mapGet conns t).map (fun c =>
      if full.contains t then c else { c with weight := c.weight * 0.99 }) := by
  induction conns with
  | nil => rfl
  | cons pc rest ih =>
      by_cases hpt : pc.1 = t
      · subst hpt
        by_cases hc : pc.1 ∈ full
        · simp [mapGet_cons, hc]
        · simp [mapGet_cons, hc]
      · by_cases hc : pc.1 ∈ full
        · simpa [mapGet_cons, hpt, hc] using ih
        · simpa [mapGet_cons, hpt, hc] using ih

/-- The two-node evaluation of `strengthenPair` when neither direction
was connected before: the forward connection is created at `0.1` and
saturates on `delta`, the reverse is created at `0.1` and saturates on
`delta * 0.7`. -/
theorem strengthenPair_fresh (s : Store) (aId bId : String)
    (a b : ActivationNode) (now : ℤ) (hab : aId ≠ bId)
    (ha : mapGet s aId = some a) (hb : mapGet s bId = some b)
    (hfw : mapGet a.connections bId = none)
    (hrv : mapGet b.connections aId = none) :
    strengthenPair now s aId bId =
      updateNode
        (updateNode s aId
          (connSet bId
            ⟨Real.tanh (0.1 + 0.1 * a.potential * b.potential), now, 0.1⟩))
        bId
        (connSet aId
          ⟨Real.tanh (0.1 + 0.1 * a.potential * b.potential * 0.7), now, 0.1⟩) := by
  have hba : bId ≠ aId := fun hh => hab hh.symm
  unfold strengthenPair
  rw [ha, hb]
  dsimp only
  rw [hfw]
  dsimp only [Option.getD_none]
  rw [mapGet_updateNode_ne s aId bId _ hba, hb]
  dsimp only
  rw [hrv]
  dsimp only [Option.getD_none]
  rfl

/-- **C5.** Asymmetric bidirectional strengthening: after
`strengthenPath` on the consecutive pair `(a, b)` of a two-entry path
with no prior connection in either direction, a forward connection
`a → b` and a reverse connection `b → a` both exist, each carrying the
creation default `plasticityRate = 0.1`; the forward weight is
`tanh(0.1 + delta)` and the reverse weight is `tanh(0.1 + delta * 0.7)`
for `delta = 0.1 * a.potential * b.potential`, and for positive `delta`
the reverse increment above the creation default `0.1` is strictly less
than the forward increment. -/
theorem asymmetric_strengthening (s : Store) (aId bId : String)
    (a b : ActivationNode) (now : ℤ) (hab : aId ≠ bId)
    (ha : mapGet s aId = some a) (hb : mapGet s bId = some b)
    (hfw : mapGet a.connections bId = none)
    (hrv : mapGet b.connections aId = none) :
    ∃ a1 b1, mapGet (strengthenPath s [aId, bId] now) aId = some a1 ∧
      mapGet (strengthenPath s [aId, bId] now) bId = some b1 ∧
      ∃ cf cr, mapGet a1.connections bId = some cf ∧
        mapGet b1.connections aId = some cr ∧
        cf.plasticityRate = 0.1 ∧ cr.plasticityRate = 0.1 ∧
        cf.weight = Real.tanh (0.1 + 0.1 * a.potential * b.potential) ∧
        cr.weight = Real.tanh (0.1 + 0.1 * a.potential * b.potential * 0.7) ∧
        (0 < 0.1 * a.potential * b.potential →
          cr.weight - 0.1 < cf.weight - 0.1) := by
  have hba : bId ≠ aId := fun hh => hab hh.symm
  have hnd : ([aId, bId] : List String).Nodup := by simp [hab]
  have hpath : strengthenPath s [aId, bId] now =
      antiHebbianPass [aId, bId] (strengthenPair now s aId bId) := rfl
  rw [hpath, strengthenPair_fresh s aId bId a b now hab ha hb hfw hrv]
  set cf0 : NodeConnection :=
    ⟨Real.tanh (0.1 + 0.1 * a.potential * b.potential), now, 0.1⟩ with hcf0
  set cr0 : NodeConnection :=
    ⟨Real.tanh (0.1 + 0.1 * a.potential * b.potential * 0.7), now, 0.1⟩ with hcr0
  set S2 := updateNode (updateNode s aId (connSet bId cf0)) bId
    (connSet aId cr0) with hS2
  have ha2 : mapGet S2 aId = some (connSet bId cf0 a) := by
    rw [hS2, mapGet_updateNode_ne _ _ _ _ hab, mapGet_updateNode_self, ha]
    rfl
  have hb2 : mapGet S2 bId = some (connSet aId cr0 b) := by
    rw [hS2, mapGet_updateNode_self, mapGet_updateNode_ne _ _ _ _ hba, hb]
    rfl
  have hmema : aId ∈ ([aId, bId] : List String) := by simp
  have hmemb : bId ∈ ([aId, bId] : List String) := by simp
  unfold antiHebbianPass
  refine ⟨_, _, mapGet_antiHebbianFold _ _ _ _ _ hnd hmema ha2,
    mapGet_antiHebbianFold _ _ _ _ _ hnd hmemb hb2, cf0, cr0, ?_, ?_, rfl, rfl,
    rfl, rfl, ?_⟩
  · show mapGet ((mapSet a.connections bId cf0).map _) bId = some cf0
    rw [mapGet_map_decay, mapGet_mapSet_self]
    simp
  · show mapGet ((mapSet b.connections aId cr0).map _) aId = some cr0
    rw [mapGet_map_decay, mapGet_mapSet_self]
    simp
  · intro hd
    have harg : 0.1 + 0.1 * a.potential * b.potential * 0.7 <
        0.1 + 0.1 * a.potential * b.potential := by linarith
    have := tanh_strictMono harg
    rw [hcf0, hcr0]
    simpa using this

/-- **C5 (witness).** The asymmetric strengthening applied to a concrete
two-node store with unit potentials and no prior connections. -/
theorem asymmetric_strengthening_witness :
    ∃ a1 b1,
      mapGet (strengthenPath
        [("a", ⟨"a", 1, [], 0.9, 0.5, 100, 0, none, none⟩),
         ("b", ⟨"b", 1, [], 0.9, 0.5, 100, 0, none, none⟩)] ["a", "b"] 7) "a"
        = some a1 ∧
      mapGet (strengthenPath
        [("a", ⟨"a", 1, [], 0.9, 0.5, 100, 0, none, none⟩),
         ("b", ⟨"b", 1, [], 0.9, 0.5, 100, 0, none, none⟩)] ["a", "b"] 7) "b"
        = some b1 ∧
      ∃ cf cr, mapGet a1.connections "b" = some cf ∧
        mapGet b1.connections "a" = some cr ∧
        cf.plasticityRate = 0.1 ∧ cr.plasticityRate = 0.1 ∧
        cf.weight = Real.tanh (0.1 + 0.1 *
          (⟨"a", 1, [], 0.9, 0.5, 100, 0, none, none⟩ : ActivationNode).potential *
          (⟨"b", 1, [], 0.9, 0.5, 100, 0, none, none⟩ : ActivationNode).potential) ∧
        cr.weight = Real.tanh (0.1 + 0.1 *
          (⟨"a", 1, [], 0.9, 0.5, 100, 0, none, none⟩ : ActivationNode).potential *
          (⟨"b", 1, [], 0.9, 0.5, 100, 0, none, none⟩ : ActivationNode).potential * 0.7) ∧
        (0 < 0.1 *
          (⟨"a", 1, [], 0.9, 0.5, 100, 0, none, none⟩ : ActivationNode).potential *
          (⟨"b", 1, [], 0.9, 0.5, 100, 0, none, none⟩ : ActivationNode).potential →
          cr.weight - 0.1 < cf.weight - 0.1) :=
  asymmetric_strengthening _ "a" "b"
    ⟨"a", 1, [], 0.9, 0.5, 100, 0, none, none⟩
    ⟨"b", 1, [], 0.9, 0.5, 100, 0, none, none⟩ 7
    (by simp) (by simp [mapGet_cons]) (by simp [mapGet_cons]) rfl rfl

/-! ## Resonance matcher contract (C3) -/

theorem resonancePass_of_no_resonance (q : List ℝ) (s : Store)
    (hnone : ∀ p ∈ s, ∀ e, (p.2 : ActivationNode).embedding = some e →
      ¬ resonanceThreshold < cosineSimilarity q e) :
    resonancePass q s = s := by
  unfold resonancePass
  rw [show s.map _ = s.map id from ?_, List.map_id]
  apply List.map_congr_left
  intro p hp
  cases he : p.2.embedding with
  | none => simp [he]
  | some e => simp [he, hnone p hp e he]

theorem resonantNodesOf_of_no_resonance (q : List ℝ) (s : Store)
    (hnone : ∀ p ∈ s, ∀ e, (p.2 : ActivationNode).embedding = some e →
      ¬ resonanceThreshold < cosineSimilarity q e) :
    resonantNodesOf q s = [] := by
  unfold resonantNodesOf
  rw [List.filterMap_eq_nil]
  intro p hp
  cases he : p.2.embedding with
  | none => simp [he]
  | some e => simp [he, hnone p hp e he]

/-- **C3.** Matcher contract: `findResonantNodes` always returns a
non-empty list; every stored node whose embedding has cosine similarity
strictly above `0.7` with the query is returned with its `potential`
overwritten to that similarity (and so mutated in the store); and when
no stored node resonates, exactly one new node — `potential = 1.0`, the
query vector as embedding, the given text as `semanticContent` — is
appended to the store and is the sole result. -/
theorem matcher_contract (s : Store) (q : List ℝ) (text : Option String)
    (freshId : String) (hfresh : freshId ∉ keys s) :
    (findResonantNodes s q text freshId).1 ≠ [] ∧
    (∀ k n e, (k, n) ∈ s → n.embedding = some e →
      resonanceThreshold < cosineSimilarity q e →
      ({ n with potential := cosineSimilarity q e }
          ∈ (findResonantNodes s q text freshId).1 ∧
        (k, { n with potential := cosineSimilarity q e })
          ∈ (findResonantNodes s q text freshId).2)) ∧
    ((∀ p ∈ s, ∀ e, (p.2 : ActivationNode).embedding = some e →
        ¬ resonanceThreshold < cosineSimilarity q e) →
      (findResonantNodes s q text freshId).1 = [createNode freshId q text] ∧
      (findResonantNodes s q text freshId).2
        = s ++ [(freshId, createNode freshId q text)]) ∧
    (createNode freshId q text).potential = 1.0 ∧
    (createNode freshId q text).embedding = some q ∧
    (createNode freshId q text).semanticContent = text := by
  refine ⟨?_, ?_, ?_, rfl, rfl, rfl⟩
  · unfold findResonantNodes
    by_cases he : (resonantNodesOf q s).isEmpty
    · simp [he]
    · simp only [he, Bool.false_eq_true, if_false, ne_eq]
      intro hc
      rw [hc] at he
      simp at he
  · intro k n e hm hemb hlt
    have h1 : { n with potential := cosineSimilarity q e }
        ∈ resonantNodesOf q s := by
      apply List.mem_filterMap.mpr
      refine ⟨(k, n), hm, ?_⟩
      simp [hemb, hlt]
    have h2 : (k, { n with potential := cosineSimilarity q e })
        ∈ resonancePass q s := by
      apply List.mem_map.mpr
      refine ⟨(k, n), hm, ?_⟩
      simp [hemb, hlt]
    have hne : ¬ (resonantNodesOf q s).isEmpty := by
      cases hc : resonantNodesOf q s
      · rw [hc] at h1; cases h1
      · simp [hc]
    unfold findResonantNodes
    simp only [hne, Bool.false_eq_true, if_false]
    exact ⟨h1, h2⟩
  · intro hnone
    have h1 := resonantNodesOf_of_no_resonance q s hnone
    have h2 := resonancePass_of_no_resonance q s hnone
    unfold findResonantNodes
    simp only [h1, h2, List.isEmpty_nil, if_true]
    exact ⟨by trivial, mapSet_of_not_mem_keys _ hfresh⟩

/-- **C3 (witness).** The matcher on an empty store: one node is created
with `potential = 1.0`, the query embedding, and the given text, and it
is the sole result. -/
theorem matcher_contract_witness :
    (findResonantNodes [] [1] (some "water") "n").1
      = [createNode "n" [1] (some "water")] ∧
    (findResonantNodes [] [1] (some "water") "n").2
      = [] ++ [("n", createNode "n" [1] (some "water"))] :=
  (matcher_contract [] [1] (some "water") "n" (by simp [keys])).2.2.1
    (by simp)

/-! ## Save cadence during learn (C9) -/

/-- **C9 (amended).** Save cadence: a `learn` call writes the store to
disk exactly when the node count of the store after strengthening is
divisible by `10` (`this.network.size % 10 === 0`) — a condition on the
stored-node count, not on the number of concepts learned so far; the two
coincide only when every call creates a node starting from an empty
store. -/
theorem save_cadence (s : Store) (q : List ℝ) (experience : String)
    (freshId : String) (now : ℤ) :
    (learnStep s q experience freshId now).2 = true ↔
      (learnStep s q experience freshId now).1.length % 10 = 0 := by
  unfold learnStep
  simp

/-- **C9 (counterexample).** The claim's every-10th-learned-concept
cadence fails as stated: on a pre-existing store of 10 nodes whose
first node's embedding matches the query exactly (so no node is
created), the very first learn call of the sequence — completing one
learned concept, not ten — already triggers the save. -/
theorem save_cadence_counterexample :
    (learnStep
      [("a", ⟨"a", 0.2, [], 0.9, 0.5, 100, 0, some [1], some "water"⟩),
       ("b1", ⟨"b1", 0, [], 0.9, 0.5, 100, 0, none, none⟩),
       ("b2", ⟨"b2", 0, [], 0.9, 0.5, 100, 0, none, none⟩),
       ("b3", ⟨"b3", 0, [], 0.9, 0.5, 100, 0, none, none⟩),
       ("b4", ⟨"b4", 0, [], 0.9, 0.5, 100, 0, none, none⟩),
       ("b5", ⟨"b5", 0, [], 0.9, 0.5, 100, 0, none, none⟩),
       ("b6", ⟨"b6", 0, [], 0.9, 0.5, 100, 0, none, none⟩),
       ("b7", ⟨"b7", 0, [], 0.9, 0.5, 100, 0, none, none⟩),
       ("b8", ⟨"b8", 0, [], 0.9, 0.5, 100, 0, none, none⟩),
       ("b9", ⟨"b9", 0, [], 0.9, 0.5, 100, 0, none, none⟩)]
      [1] "steam is hot" "fresh" 0).2 = true ∧ 1 % 10 ≠ 0 := by
  constructor
  · norm_num [learnStep, findResonantNodes, resonantNodesOf, resonancePass,
      strengthenPath, strengthenPairs, antiHebbianPass, antiHebbianNode,
      updateNode, cosineSimilarity, resonanceThreshold, Real.sqrt_one,
      createNode, List.filterMap_cons, List.filterMap_nil, List.foldl_cons,
      List.foldl_nil]
  · decide

/-! ## Propagation frame property (C10) -/

theorem storeFrame_updateNode (s : Store) (k : String)
    (f : ActivationNode → ActivationNode)
    (hf : ∀ n, nodeFrame (f n) = nodeFrame n) :
    storeFrame (updateNode s k f) = storeFrame s := by
  unfold storeFrame updateNode
  rw [List.map_map]
  apply List.map_congr_left
  intro p _
  by_cases hpk : p.1 = k
  · simp [hpk, hf]
  · simp [hpk]

theorem storeFrame_stepConn (params : ActivationParams) (now : ℤ) (edge : Bool)
    (currentPot : ℝ) (st : PropState) (pc : String × NodeConnection) :
    storeFrame (stepConn params now edge currentPot st pc).network
      = storeFrame st.network := by
  unfold stepConn
  split
  · rfl
  · split
    · rfl
    · split <;> (dsimp only; split)
      · dsimp only
        rw [storeFrame_updateNode, storeFrame_updateNode]
        · intro n; rfl
        · intro n; rfl
      · dsimp only
        rw [storeFrame_updateNode]
        intro n; rfl
      · dsimp only
        rw [storeFrame_updateNode, storeFrame_updateNode]
        · intro n; rfl
        · intro n; rfl
      · dsimp only
        rw [storeFrame_updateNode]
        intro n; rfl

theorem storeFrame_stepConn_foldl (params : ActivationParams) (now : ℤ)
    (edge : Bool) (currentPot : ℝ) (st : PropState)
    (conns : List (String × NodeConnection)) :
    storeFrame (conns.foldl (stepConn params now edge currentPot) st).network
      = storeFrame st.network := by
  induction conns generalizing st with
  | nil => rfl
  | cons pc rest ih =>
      rw [List.foldl_cons, ih, storeFrame_stepConn]

theorem storeFrame_propagateLoop (params : ActivationParams) (now : ℤ)
    (edge : Bool) (fuel : Nat) (st : PropState) :
    storeFrame (propagateLoop params now edge fuel st).network
      = storeFrame st.network := by
  induction fuel generalizing st with
  | zero => rfl
  | succ n ih =>
      unfold propagateLoop
      split
      · rfl
      · dsimp only
        split
        · rw [ih]
        · split
          · rw [ih]
            dsimp only
            rw [storeFrame_updateNode]
            intro n2; rfl
          · rw [ih, storeFrame_stepConn_foldl]
            dsimp only
            rw [storeFrame_updateNode]
            intro n2; rfl

/-- **C10.** Propagation frame property: `propagateActivation` mutates
only node `potential` and `lastFired` values.  It creates and removes no
node and no connection, never touches any connection's `weight`,
`plasticityRate` or `lastFired`, and never changes a node's `id`,
`connections`, `decay`, `threshold`, `refractoryPeriod`, `embedding` or
`semanticContent` — the store with all potentials and firing times
erased is exactly preserved, entry for entry and in order. -/
theorem propagation_frame (network : Store) (coherenceScore chaosThreshold : ℝ)
    (startIds : List String) (params : ActivationParams) (now : ℤ) :
    storeFrame (propagateActivation network coherenceScore chaosThreshold
        startIds params now).2.network = storeFrame network := by
  unfold propagateActivation
  exact storeFrame_propagateLoop _ _ _ _ _

/-! ## Single-step equations of the propagation loop (for C4) -/

theorem propagateLoop_nil (params : ActivationParams) (now : ℤ) (edge : Bool)
    (fuel : Nat) (st : PropState) (h : st.wavefront = []) :
    propagateLoop params now edge fuel st = st := by
  cases fuel with
  | zero => rfl
  | succ n =>
      unfold propagateLoop
      rw [h]

theorem propagateLoop_cons_active (params : ActivationParams) (now : ℤ)
    (edge : Bool) (fuel : Nat) (st : PropState) (currentId : String)
    (rest : List String) (cur : ActivationNode)
    (hw : st.wavefront = currentId :: rest)
    (hg : mapGet st.network currentId = some cur)
    (hr : ¬ (now - cur.lastFired < cur.refractoryPeriod)) :
    propagateLoop params now edge (fuel + 1) st =
      propagateLoop params now edge fuel
        (cur.connections.foldl
          (stepConn params now edge (cur.potential * params.decay))
          { st with
            network := updateNode st.network currentId
              (scalePotential params.decay)
            wavefront := rest }) := by
  conv_lhs => rw [propagateLoop]
  rw [hw]
  dsimp only
  rw [hg]
  dsimp only
  rw [if_neg hr]
  rfl

theorem propagateLoop_cons_refractory (params : ActivationParams) (now : ℤ)
    (edge : Bool) (fuel : Nat) (st : PropState) (currentId : String)
    (rest : List String) (cur : ActivationNode)
    (hw : st.wavefront = currentId :: rest)
    (hg : mapGet st.network currentId = some cur)
    (hr : now - cur.lastFired < cur.refractoryPeriod) :
    propagateLoop params now edge (fuel + 1) st =
      propagateLoop params now edge fuel
        { st with
          network := updateNode st.network currentId
            (scalePotential params.decay)
          wavefront := rest } := by
  conv_lhs => rw [propagateLoop]
  rw [hw]
  dsimp only
  rw [hg]
  dsimp only
  rw [if_pos hr]
  rfl

theorem stepConn_nofire (params : ActivationParams) (now : ℤ) (edge : Bool)
    (currentPot : ℝ) (st : PropState) (t : String) (c : NodeConnection)
    (B : ActivationNode) (hnv : t ∉ st.visited)
    (hg : mapGet st.network t = some B)
    (hnf : ¬ (params.threshold <
      B.potential + activationOf params edge currentPot c.weight)) :
    stepConn params now edge currentPot st (t, c) =
      { st with
          network := updateNode st.network t
            (addPotential (activationOf params edge currentPot c.weight)) } := by
  have hv2 : st.visited.contains t = false := by simpa using hnv
  have hnf2 : ¬ (params.threshold < B.potential +
      (currentPot * c.weight * params.spread +
        (if edge then alpha * Real.tanh (currentPot * c.weight * params.spread)
         else 0))) := by
    simpa [activationOf] using hnf
  unfold stepConn
  rw [hv2]
  dsimp only
  rw [hg]
  dsimp only
  rw [if_neg hnf2]
  rfl

theorem stepConn_fire (params : ActivationParams) (now : ℤ) (edge : Bool)
    (currentPot : ℝ) (st : PropState) (t : String) (c : NodeConnection)
    (B : ActivationNode) (hnv : t ∉ st.visited)
    (hg : mapGet st.network t = some B)
    (hf : params.threshold <
      B.potential + activationOf params edge currentPot c.weight) :
    stepConn params now edge currentPot st (t, c) =
      { network := updateNode (updateNode st.network t
          (addPotential (activationOf params edge currentPot c.weight))) t
          (setLastFired now)
        path := st.path ++ [t]
        visited := st.visited ++ [t]
        wavefront := st.wavefront ++ [t]
        coherenceScore := (updateCoherenceMetrics
          (resolvePath
            (updateNode (updateNode st.network t
              (addPotential (activationOf params edge currentPot c.weight))) t
              (setLastFired now))
            (st.path ++ [t])) st.coherenceScore st.chaosThreshold).1
        chaosThreshold := (updateCoherenceMetrics
          (resolvePath
            (updateNode (updateNode st.network t
              (addPotential (activationOf params edge currentPot c.weight))) t
              (setLastFired now))
            (st.path ++ [t])) st.coherenceScore st.chaosThreshold).2 } := by
  have hv2 : st.visited.contains t = false := by simpa using hnv
  have hf2 : params.threshold < B.potential +
      (currentPot * c.weight * params.spread +
        (if edge then alpha * Real.tanh (currentPot * c.weight * params.spread)
         else 0)) := by
    simpa [activationOf] using hf
  unfold stepConn
  rw [hv2]
  dsimp only
  rw [hg]
  dsimp only
  rw [if_pos hf2]
  rfl

/-! ## Propagation lower bound (C4) -/

/-- **C4 (amended).** Propagation lower bound: for a two-node store
`A, B` holding the connection `A → B` of weight `w` left by a single
`strengthen([A,B])`, with `A` outside its refractory period, the engine
in its default chaos regime (`1 < chaosThreshold < 1.5`), nonnegative
`A.potential` and `w` with `A.potential * w ≤ 1`, and `B` not driven
over the firing threshold by the received activation (otherwise the
decay applied when `B` is popped can shrink or even reverse the gain),
running `propagateActivation` seeded at `[A]` with the broad regime
(spread `0.8`, threshold `0.3`, decay `0.9`) raises `B`'s potential
above its pre-call value by at least `A.potential * w * 0.8`, the
pre-call values. -/
theorem propagation_lower_bound (aId bId : String) (A B : ActivationNode)
    (c : NodeConnection) (cs ct : ℝ) (now : ℤ)
    (hab : aId ≠ bId)
    (hAconn : A.connections = [(bId, c)])
    (hrefr : ¬ (now - A.lastFired < A.refractoryPeriod))
    (hct1 : (1.0 : ℝ) < ct) (hct2 : ct < 1.5)
    (hp0 : 0 ≤ A.potential) (hw0 : 0 ≤ c.weight)
    (hx1 : A.potential * c.weight ≤ 1)
    (hnofire : B.potential + activationOf broadParams true
        (A.potential * broadParams.decay) c.weight ≤ broadParams.threshold) :
    ∃ B2, mapGet (propagateActivation [(aId, A), (bId, B)] cs ct [aId]
        broadParams now).2.network bId = some B2 ∧
      A.potential * c.weight * 0.8 ≤ B2.potential - B.potential := by
  have hba : bId ≠ aId := fun hh => hab hh.symm
  have hedge : decide ((1.0 : ℝ) < ct ∧ ct < 1.5) = true :=
    decide_eq_true ⟨hct1, hct2⟩
  have hrun : (propagateActivation [(aId, A), (bId, B)] cs ct [aId]
      broadParams now).2.network =
      updateNode (updateNode [(aId, A), (bId, B)] aId
        (scalePotential broadParams.decay)) bId
        (addPotential (activationOf broadParams true
          (A.potential * broadParams.decay) c.weight)) := by
    unfold propagateActivation
    dsimp only
    rw [hedge]
    rw [propagateLoop_cons_active broadParams now true
      ([aId].length + [(aId, A), (bId, B)].length) _ aId [] A rfl
      (by simp [mapGet_cons]) hrefr]
    rw [hAconn, List.foldl_cons,
      stepConn_nofire broadParams now true (A.potential * broadParams.decay)
        _ bId c B (by simp [hba])
        (by simp [updateNode, mapGet_cons, hab, hba])
        (not_lt.mpr hnofire),
      List.foldl_nil]
    rw [propagateLoop_nil _ _ _ _ _ rfl]
  refine ⟨addPotential (activationOf broadParams true
    (A.potential * broadParams.decay) c.weight) B, ?_, ?_⟩
  · rw [hrun, mapGet_updateNode_self, mapGet_updateNode_ne _ _ _ _ hba]
    rw [mapGet_cons, if_neg hab, mapGet_cons, if_pos rfl]
    rfl
  · show A.potential * c.weight * 0.8 ≤
      B.potential + activationOf broadParams true
        (A.potential * broadParams.decay) c.weight - B.potential
    have hx0 : 0 ≤ A.potential * c.weight := mul_nonneg hp0 hw0
    have hbase0 : (0 : ℝ) ≤ 0.72 * (A.potential * c.weight) := by linarith
    have hbase1 : 0.72 * (A.potential * c.weight) ≤ 1 := by nlinarith
    have htanh := half_le_tanh (0.72 * (A.potential * c.weight)) hbase0 hbase1
    have halpha : alpha = 1 := by norm_num [alpha]
    unfold activationOf
    dsimp only [broadParams]
    rw [if_pos rfl, halpha, one_mul]
    have harg : A.potential * 0.9 * c.weight * 0.8
        = 0.72 * (A.potential * c.weight) := by ring
    rw [harg]
    linarith

/-- **C4 (witness).** The amended bound applied to a concrete two-node
store (zero potentials and a zero-weight connection, which trivially
avoids firing). -/
theorem propagation_lower_bound_witness :
    ∃ B2, mapGet (propagateActivation
        [("a", ⟨"a", 0, [("b", ⟨0, 0, 0.1⟩)], 0.9, 0.5, 100, 0, none, none⟩),
         ("b", ⟨"b", 0, [("a", ⟨0.1, 0, 0.1⟩)], 0.9, 0.5, 100, 0, none, none⟩)]
        0 1.2 ["a"] broadParams 1000).2.network "b" = some B2 ∧
      (⟨"a", 0, [("b", ⟨0, 0, 0.1⟩)], 0.9, 0.5, 100, 0, none,
        none⟩ : ActivationNode).potential *
        ((⟨0, 0, 0.1⟩ : NodeConnection)).weight * 0.8 ≤
      B2.potential - (⟨"b", 0, [("a", ⟨0.1, 0, 0.1⟩)], 0.9, 0.5, 100, 0, none,
        none⟩ : ActivationNode).potential :=
  propagation_lower_bound "a" "b"
    ⟨"a", 0, [("b", ⟨0, 0, 0.1⟩)], 0.9, 0.5, 100, 0, none, none⟩
    ⟨"b", 0, [("a", ⟨0.1, 0, 0.1⟩)], 0.9, 0.5, 100, 0, none, none⟩
    ⟨0, 0, 0.1⟩ 0 1.2 1000 (by simp) rfl (by norm_num) (by norm_num)
    (by norm_num) (by norm_num) (by norm_num) (by norm_num)
    (by norm_num [activationOf, broadParams, Real.tanh_zero])

/-- **C4 (counterexample).** The claim fails as stated: starting from
two fresh nodes with potentials `1` and `100`, one `strengthen([A,B])`
leaves an `A → B` connection and `A` outside its refractory period, yet
broad propagation seeded at `[A]` makes `B` fire, and the decay applied
when `B` is popped from the wavefront lowers `B`\'s potential below its
pre-call value — far below the claimed gain of
`A.potential * weight_AB * 0.8`. -/
theorem propagation_lower_bound_counterexample :
    ∃ A1 B1 c B2,
      mapGet (strengthenPath
        [("a", ⟨"a", 1, [], 0.9, 0.5, 100, 0, none, none⟩),
         ("b", ⟨"b", 100, [], 0.9, 0.5, 100, 0, none, none⟩)]
        ["a", "b"] 500) "a" = some A1 ∧
      mapGet (strengthenPath
        [("a", ⟨"a", 1, [], 0.9, 0.5, 100, 0, none, none⟩),
         ("b", ⟨"b", 100, [], 0.9, 0.5, 100, 0, none, none⟩)]
        ["a", "b"] 500) "b" = some B1 ∧
      mapGet A1.connections "b" = some c ∧
      ¬ ((1000 : ℤ) - A1.lastFired < A1.refractoryPeriod) ∧
      mapGet (propagateActivation
        (strengthenPath
          [("a", ⟨"a", 1, [], 0.9, 0.5, 100, 0, none, none⟩),
           ("b", ⟨"b", 100, [], 0.9, 0.5, 100, 0, none, none⟩)]
          ["a", "b"] 500) 0 1.2 ["a"] broadParams 1000).2.network "b"
        = some B2 ∧
      B2.potential - B1.potential < A1.potential * c.weight * 0.8 := by
  have hS1 : strengthenPath
      [("a", ⟨"a", 1, [], 0.9, 0.5, 100, 0, none, none⟩),
       ("b", ⟨"b", 100, [], 0.9, 0.5, 100, 0, none, none⟩)]
      ["a", "b"] 500 =
      [("a", ⟨"a", 1,
          [("b", ⟨Real.tanh (0.1 + 0.1 * 100), 500, 0.1⟩)],
          0.9, 0.5, 100, 0, none, none⟩),
       ("b", ⟨"b", 100,
          [("a", ⟨Real.tanh (0.1 + 0.1 * 100 * 0.7), 500, 0.1⟩)],
          0.9, 0.5, 100, 0, none, none⟩)] := by
    simp [strengthenPath, strengthenPairs, strengthenPair, antiHebbianPass,
      antiHebbianNode, updateNode, mapSet, mapGet_cons, mapGet]
  rw [hS1]
  have hw0 : 0 ≤ Real.tanh (0.1 + 0.1 * 100) :=
    tanh_nonneg_of_nonneg _ (by norm_num)
  have hw1 : Real.tanh (0.1 + 0.1 * 100) < 1 := tanh_lt_one _
  have hedge : decide ((1.0 : ℝ) < 1.2 ∧ (1.2 : ℝ) < 1.5) = true :=
    decide_eq_true ⟨by norm_num, by norm_num⟩
  have htb0 : 0 ≤ Real.tanh (1 * 0.9 * Real.tanh (0.1 + 0.1 * 100) * 0.8) := by
    apply tanh_nonneg_of_nonneg
    nlinarith
  have htb1 : Real.tanh (1 * 0.9 * Real.tanh (0.1 + 0.1 * 100) * 0.8) < 1 :=
    tanh_lt_one _
  have halpha : alpha = 1 := by norm_num [alpha]
  have hfire : broadParams.threshold <
      (⟨"b", 100, [("a", ⟨Real.tanh (0.1 + 0.1 * 100 * 0.7), 500, 0.1⟩)],
        0.9, 0.5, 100, 0, none, none⟩ : ActivationNode).potential +
      activationOf broadParams true (1 * broadParams.decay)
        (⟨Real.tanh (0.1 + 0.1 * 100), 500, 0.1⟩ : NodeConnection).weight := by
    unfold activationOf
    dsimp only [broadParams]
    rw [if_pos rfl, halpha, one_mul]
    nlinarith
  have hrun : mapGet (propagateActivation
      [("a", ⟨"a", 1,
          [("b", ⟨Real.tanh (0.1 + 0.1 * 100), 500, 0.1⟩)],
          0.9, 0.5, 100, 0, none, none⟩),
       ("b", ⟨"b", 100,
          [("a", ⟨Real.tanh (0.1 + 0.1 * 100 * 0.7), 500, 0.1⟩)],
          0.9, 0.5, 100, 0, none, none⟩)] 0 1.2 ["a"]
      broadParams 1000).2.network "b" =
      some ⟨"b",
        (100 + activationOf broadParams true (1 * broadParams.decay)
          (Real.tanh (0.1 + 0.1 * 100))) * broadParams.decay,
        [("a", ⟨Real.tanh (0.1 + 0.1 * 100 * 0.7), 500, 0.1⟩)],
        0.9, 0.5, 100, 1000, none, none⟩ := by
    unfold propagateActivation
    dsimp only
    rw [hedge]
    have hfuel : (["a"] : List String).length +
        ([("a", (⟨"a", 1,
            [("b", ⟨Real.tanh (0.1 + 0.1 * 100), 500, 0.1⟩)],
            0.9, 0.5, 100, 0, none, none⟩ : ActivationNode)),
          ("b", (⟨"b", 100,
            [("a", ⟨Real.tanh (0.1 + 0.1 * 100 * 0.7), 500, 0.1⟩)],
            0.9, 0.5, 100, 0, none, none⟩ : ActivationNode))] : Store).length
        = 2 + 1 := by simp
    rw [hfuel]
    rw [propagateLoop_cons_active broadParams 1000 true (2 + 1) _ "a" []
      (⟨"a", 1, [("b", ⟨Real.tanh (0.1 + 0.1 * 100), 500, 0.1⟩)],
        0.9, 0.5, 100, 0, none, none⟩ : ActivationNode) rfl
      (by simp [mapGet_cons]) (by norm_num)]
    dsimp only
    rw [List.foldl_cons,
      stepConn_fire broadParams 1000 true (1 * broadParams.decay) _ "b"
        (⟨Real.tanh (0.1 + 0.1 * 100), 500, 0.1⟩ : NodeConnection)
        (⟨"b", 100, [("a", ⟨Real.tanh (0.1 + 0.1 * 100 * 0.7), 500, 0.1⟩)],
          0.9, 0.5, 100, 0, none, none⟩ : ActivationNode)
        (by simp)
        (by simp [updateNode, mapGet_cons, scalePotential]) hfire,
      List.foldl_nil]
    rw [propagateLoop_cons_refractory broadParams 1000 true 2 _ "b" []
      (setLastFired 1000 (addPotential
        (activationOf broadParams true (1 * broadParams.decay)
          (Real.tanh (0.1 + 0.1 * 100)))
        (⟨"b", 100, [("a", ⟨Real.tanh (0.1 + 0.1 * 100 * 0.7), 500, 0.1⟩)],
          0.9, 0.5, 100, 0, none, none⟩ : ActivationNode))) rfl
      (by simp [updateNode, mapGet_cons, scalePotential, addPotential,
        setLastFired])
      (by norm_num [setLastFired, addPotential])]
    rw [propagateLoop_nil _ _ _ _ _ rfl]
    simp [updateNode, mapGet_cons, scalePotential, addPotential, setLastFired]
  refine ⟨⟨"a", 1, [("b", ⟨Real.tanh (0.1 + 0.1 * 100), 500, 0.1⟩)],
      0.9, 0.5, 100, 0, none, none⟩,
    ⟨"b", 100, [("a", ⟨Real.tanh (0.1 + 0.1 * 100 * 0.7), 500, 0.1⟩)],
      0.9, 0.5, 100, 0, none, none⟩,
    ⟨Real.tanh (0.1 + 0.1 * 100), 500, 0.1⟩,
    ⟨"b",
      (100 + activationOf broadParams true (1 * broadParams.decay)
        (Real.tanh (0.1 + 0.1 * 100))) * broadParams.decay,
      [("a", ⟨Real.tanh (0.1 + 0.1 * 100 * 0.7), 500, 0.1⟩)],
      0.9, 0.5, 100, 1000, none, none⟩,
    by simp [mapGet_cons], by simp [mapGet_cons], by simp [mapGet_cons],
    by norm_num, hrun, ?_⟩
  show (100 + activationOf broadParams true (1 * broadParams.decay)
      (Real.tanh (0.1 + 0.1 * 100))) * broadParams.decay - 100 <
    1 * Real.tanh (0.1 + 0.1 * 100) * 0.8
  unfold activationOf
  dsimp only [broadParams]
  rw [if_pos rfl, halpha, one_mul]
  linarith

end HelenKeller
